import Mathlib

/-!
Verification of the arithmetic-expression interpreter in `spi.py`
(lexer, recursive-descent parser, tree-walking evaluator).

The embedding follows the source closely:

* The lexer's state (`text`, `pos`, `current_char`) is modelled by the list
  of characters not yet consumed: `current_char` is the head (Python `None`
  corresponds to the empty list) and `advance` is `tail`.  No position is
  ever reported by the source (its errors carry no payload), so this is
  observationally identical.
* `Parser.factor` in the source has no `else` branch: on a lookahead that is
  neither `INTEGER` nor `LPAREN` the Python function falls through and
  returns `None`.  That `None` is modelled by the dedicated AST constructor
  `ASTNode.pyNone`, and the interpreter's reflective dispatch failure
  (`Exception('No visit_NoneType method')`) by `Err.visitorError "NoneType"`.
* Recursion in the parser is indexed by explicit fuel; `Err.outOfFuel` marks
  fuel exhaustion and is proved unreachable for the fuel budget used by
  `evaluate` (linear in the input length).
* Python `//` is floor division, modelled by `Int.fdiv`; `//` by zero raises
  `ZeroDivisionError` (a subclass of `ArithmeticError`), modelled by
  `Err.zeroDivisionError`.
* `Lexer.__init__` evaluates `self.text[self.pos]` with `pos = 0`, which on
  the empty string raises `IndexError`; modelled by `Err.indexError`.
-/

namespace SPI

/-- Token types of the lexer (`INTEGER, PLUS, MINUS, MUL, DIV, LPAREN,
RPAREN, EOF` in the source). -/
inductive TokenType where
  | INTEGER
  | PLUS
  | MINUS
  | MUL
  | DIV
  | LPAREN
  | RPAREN
  | EOF
deriving DecidableEq, Repr

/-- A token: a type tag plus a value payload.  In the source the payload is
the parsed integer for `INTEGER` tokens, the lexeme string for operator and
parenthesis tokens, and `None` for `EOF`; only the integer payload is ever
read (by `Num` / `visit_Num`), so the non-integer payloads are modelled by
the unread value `0`. -/
structure Token where
  type : TokenType
  value : Int
deriving DecidableEq, Repr

/-- The possible failure outcomes of one evaluation.

  * `indexError` is the `IndexError` raised by `Lexer.__init__` on empty text;
  * `lexError` is `Lexer.error`, which raises `Exception('Invalid character')`
    carrying only that fixed message (no character, no position);
  * `parseError` is `Parser.error`, `Exception('Invalid syntax')`;
  * `zeroDivisionError` is the `ZeroDivisionError` raised by `//` (it is a
    subclass of Python's `ArithmeticError`);
  * `visitorError t` is `NodeVisitor.generic_visit`, which raises
    `Exception('No visit_<t> method')` when dispatch finds no handler for a
    node of type `t`;
  * `outOfFuel` marks exhaustion of the explicit fuel of the embedded parser;
    the termination theorem shows it is never produced by `evaluate`. -/
inductive Err where
  | indexError
  | lexError (msg : String)
  | parseError (msg : String)
  | zeroDivisionError
  | visitorError (typeName : String)
  | outOfFuel
deriving DecidableEq, Repr

/-- `Lexer.skip_whitespace`: advance while the current character is
whitespace. -/
def skipWhitespace : List Char → List Char
  | [] => []
  | c :: cs => if c.isWhitespace then skipWhitespace cs else c :: cs

/-- The digit run consumed by `Lexer.integer` together with the remaining
input: the maximal prefix of digits and the rest. -/
def spanDigits : List Char → List Char × List Char
  | [] => ([], [])
  | c :: cs =>
    if c.isDigit then
      let p := spanDigits cs
      (c :: p.1, p.2)
    else ([], c :: cs)

/-- `int(result)` applied to the digit string collected by `Lexer.integer`:
the base-10 value of a digit run. -/
def digitsToNat (ds : List Char) : Nat :=
  ds.foldl (fun n c => 10 * n + (c.toNat - '0'.toNat)) 0

/-- `Lexer.get_next_token`.  The source loops: skip whitespace and retry,
return an `INTEGER` token on a digit, a one-character token on an operator
or parenthesis, raise `Exception('Invalid character')` otherwise, and return
the `EOF` token once the input is exhausted.  After `skip_whitespace` the
current character is not whitespace, so the loop runs the classification at
most once; it is therefore written as skip-then-classify. -/
def getNextToken (cs : List Char) : Except Err (Token × List Char) :=
  match skipWhitespace cs with
  | [] => .ok (⟨.EOF, 0⟩, [])
  | c :: rest =>
    if c.isDigit then
      let p := spanDigits (c :: rest)
      .ok (⟨.INTEGER, (digitsToNat p.1 : Int)⟩, p.2)
    else if c = '+' then .ok (⟨.PLUS, 0⟩, rest)
    else if c = '-' then .ok (⟨.MINUS, 0⟩, rest)
    else if c = '*' then .ok (⟨.MUL, 0⟩, rest)
    else if c = '/' then .ok (⟨.DIV, 0⟩, rest)
    else if c = '(' then .ok (⟨.LPAREN, 0⟩, rest)
    else if c = ')' then .ok (⟨.RPAREN, 0⟩, rest)
    else .error (.lexError "Invalid character")

/-- The parser's state: the one-token lookahead `current_token` and the
unconsumed input of the lexer it draws from. -/
structure ParserState where
  currentToken : Token
  rest : List Char
deriving DecidableEq, Repr

/-- `Parser.__init__`: prime the lookahead with one `get_next_token` call. -/
def mkParser (cs : List Char) : Except Err ParserState :=
  match getNextToken cs with
  | .error e => .error e
  | .ok (t, r) => .ok ⟨t, r⟩

/-- `Parser.eat`: if the lookahead has the expected type, replace it by the
next token from the lexer; otherwise `Parser.error` raises
`Exception('Invalid syntax')`. -/
def eat (t : TokenType) (s : ParserState) : Except Err ParserState :=
  if s.currentToken.type = t then
    match getNextToken s.rest with
    | .error e => .error e
    | .ok (t1, r1) => .ok ⟨t1, r1⟩
  else .error (.parseError "Invalid syntax")

/-- AST nodes (`BinOp`, `Num`), plus `pyNone` for the Python `None` that
`Parser.factor` returns when its lookahead is neither `INTEGER` nor
`LPAREN` (the source has no `else` branch there). -/
inductive ASTNode where
  | num (token : Token)
  | binOp (left : ASTNode) (op : Token) (right : ASTNode)
  | pyNone
deriving DecidableEq, Repr

/-- The grammar routine being run: `factor`, `term`, `expr`, and the two
while-loops inside `term` and `expr` with their accumulated left operand. -/
inductive Rule where
  | factor
  | term
  | expr
  | termLoop (node : ASTNode)
  | exprLoop (node : ASTNode)

/-- The recursive-descent parser `Parser.factor` / `Parser.term` /
`Parser.expr`, indexed by fuel (one unit per rule invocation or loop
iteration; `none` is fuel exhaustion).

  * `factor`: on `INTEGER` eat it and return a `Num` node built from the
    pre-eat lookahead (the source saves it in a local `token` variable, here
    inlined as the state is immutable); on `LPAREN` eat it, parse `expr`, eat `RPAREN`, return the
    inner node; otherwise fall through and return Python `None` (`pyNone`)
    exactly as the source does (its `if/elif` has no `else`).
  * `term` (`expr`): parse a `factor` (`term`), then while the lookahead is
    `MUL`/`DIV` (`PLUS`/`MINUS`), eat the operator and fold the next
    `factor` (`term`) into `BinOp(left=node, op=token, right=...)`. -/
def runRule : Nat → Rule → ParserState → Option (Except Err (ASTNode × ParserState))
  | 0, _, _ => none
  | fuel + 1, rule, s =>
    match rule with
    | .factor =>
      if s.currentToken.type = .INTEGER then
        match eat .INTEGER s with
        | .error e => some (.error e)
        | .ok s1 => some (.ok (.num s.currentToken, s1))
      else if s.currentToken.type = .LPAREN then
        match eat .LPAREN s with
        | .error e => some (.error e)
        | .ok s1 =>
          match runRule fuel .expr s1 with
          | none => none
          | some (.error e) => some (.error e)
          | some (.ok (node, s2)) =>
            match eat .RPAREN s2 with
            | .error e => some (.error e)
            | .ok s3 => some (.ok (node, s3))
      else
        some (.ok (.pyNone, s))
    | .term =>
      match runRule fuel .factor s with
      | none => none
      | some (.error e) => some (.error e)
      | some (.ok (node, s1)) => runRule fuel (.termLoop node) s1
    | .termLoop node =>
      if s.currentToken.type = .MUL ∨ s.currentToken.type = .DIV then
        match (if s.currentToken.type = .MUL then eat .MUL s else eat .DIV s) with
        | .error e => some (.error e)
        | .ok s1 =>
          match runRule fuel .factor s1 with
          | none => none
          | some (.error e) => some (.error e)
          | some (.ok (rhs, s2)) =>
            runRule fuel (.termLoop (.binOp node s.currentToken rhs)) s2
      else
        some (.ok (node, s))
    | .expr =>
      match runRule fuel .term s with
      | none => none
      | some (.error e) => some (.error e)
      | some (.ok (node, s1)) => runRule fuel (.exprLoop node) s1
    | .exprLoop node =>
      if s.currentToken.type = .PLUS ∨ s.currentToken.type = .MINUS then
        match (if s.currentToken.type = .PLUS then eat .PLUS s else eat .MINUS s) with
        | .error e => some (.error e)
        | .ok s1 =>
          match runRule fuel .term s1 with
          | none => none
          | some (.error e) => some (.error e)
          | some (.ok (rhs, s2)) =>
            runRule fuel (.exprLoop (.binOp node s.currentToken rhs)) s2
      else
        some (.ok (node, s))

/-- `Interpreter.visit` / `visit_BinOp` / `visit_Num`.  `visit_BinOp`
evaluates the left child, then the right child, then combines with the
operator; `//` is Python floor division (`Int.fdiv`) and raises
`ZeroDivisionError` when the divisor is zero.  Dispatch on a `pyNone` value
finds no `visit_NoneType` handler and raises through `generic_visit`.
The final branch of `visit_BinOp` is unreachable (the parser only builds
`BinOp` nodes with operator tokens); Python would return `None` there. -/
def visit : ASTNode → Except Err Int
  | .binOp l op r =>
    if op.type = .PLUS then do
      let a ← visit l
      let b ← visit r
      pure (a + b)
    else if op.type = .MINUS then do
      let a ← visit l
      let b ← visit r
      pure (a - b)
    else if op.type = .MUL then do
      let a ← visit l
      let b ← visit r
      pure (a * b)
    else if op.type = .DIV then do
      let a ← visit l
      let b ← visit r
      if b = 0 then .error .zeroDivisionError else pure (Int.fdiv a b)
    else .ok 0
  | .num t => .ok t.value
  | .pyNone => .error (.visitorError "NoneType")

/-- `Parser.parse` (which is just `expr`) run on a text, with explicit fuel:
construct the lexer (`Lexer.__init__` raises `IndexError` on empty text
because it evaluates `text[0]`), prime the parser, run `expr`.  The
lookahead left over after `expr` is discarded: `parse` never checks that it
is `EOF`. -/
def parseWith (fuel : Nat) (text : String) : Except Err ASTNode :=
  let cs := text.data
  if cs.isEmpty then .error .indexError
  else
    match mkParser cs with
    | .error e => .error e
    | .ok s =>
      match runRule fuel .expr s with
      | none => .error .outOfFuel
      | some (.error e) => .error e
      | some (.ok (node, _)) => .ok node

/-- `Interpreter.interpret` with explicit fuel: parse, then walk the tree. -/
def evaluateWith (fuel : Nat) (text : String) : Except Err Int :=
  match parseWith fuel text with
  | .error e => .error e
  | .ok node => visit node

/-- The fuel budget `evaluate` runs the parser with; the termination theorem
shows it suffices for every input. -/
def fuelBudget (text : String) : Nat :=
  4 * text.data.length + 5

/-- `Parser.parse` on a text (sufficient fuel). -/
def parseText (text : String) : Except Err ASTNode :=
  parseWith (fuelBudget text) text

/-- The whole pipeline, `Lexer` → `Parser` → `Interpreter.interpret`, as run
on one input line by the surrounding loop. -/
def evaluate (text : String) : Except Err Int :=
  evaluateWith (fuelBudget text) text

/-- A tree is fully constructed when no Python `None` stands where a node
belongs: every `BinOp` has two real children, recursively. -/
def fullyConstructed : ASTNode → Bool
  | .num _ => true
  | .binOp l _ r => fullyConstructed l && fullyConstructed r
  | .pyNone => false

/-- The unconsumed input still in front of a parser state: the unread
characters plus one for a pending non-`EOF` lookahead. -/
def ParserState.remaining (s : ParserState) : Nat :=
  s.rest.length + (if s.currentToken.type = .EOF then 0 else 1)

/-- Fuel sufficient for one run of each grammar routine, as a function of
the remaining-input measure. -/
def ruleNeed : Rule → Nat → Nat
  | .factor, n => 4 * n + 3
  | .term, n => 4 * n + 4
  | .expr, n => 4 * n + 5
  | .termLoop _, n => 4 * n + 1
  | .exprLoop _, n => 4 * n + 1

def lastDigit (l : List Char) : Bool :=
  (l.getLast?.map Char.isDigit).getD false

def headDigit (l : List Char) : Bool :=
  (l.head?.map Char.isDigit).getD false

/-- The remaining input `r2` is `r1` with one whitespace character `c`
inserted right before the suffix `l2`, at a position that does not split a
digit run — or the insertion point is already behind both. -/
def InsAt (c : Char) (l2 : List Char) (r1 r2 : List Char) : Prop :=
  r1 = r2 ∨
    ∃ a, r1 = a ++ l2 ∧ r2 = a ++ c :: l2 ∧
      ¬(lastDigit a = true ∧ headDigit l2 = true)

deriving instance DecidableEq for Except

/-- A digit is not whitespace, so `skip_whitespace` stops at it. -/
theorem isWhitespace_eq_false_of_isDigit {c : Char} (h : c.isDigit = true) :
    c.isWhitespace = false := by
  rcases Bool.eq_false_or_eq_true c.isWhitespace with hw | hw
  · exfalso
    have hcases : ((c = ' ' ∨ c = '\t') ∨ c = '\r') ∨ c = '\n' := by
      simpa [Char.isWhitespace] using hw
    rcases hcases with ((rfl | rfl) | rfl) | rfl <;> exact absurd h (by decide)
  · exact hw

theorem skipWhitespace_cons_of_ws {c : Char} (h : c.isWhitespace = true)
    (l : List Char) : skipWhitespace (c :: l) = skipWhitespace l := by
  simp [skipWhitespace, h]

theorem skipWhitespace_cons_of_not_ws {c : Char} (h : c.isWhitespace = false)
    (l : List Char) : skipWhitespace (c :: l) = c :: l := by
  simp [skipWhitespace, h]

/-- `skip_whitespace` only discards characters from the front. -/
theorem skipWhitespace_suffix (l : List Char) : skipWhitespace l <:+ l := by
  induction l with
  | nil => exact List.suffix_rfl
  | cons c cs ih =>
    by_cases h : c.isWhitespace
    · rw [skipWhitespace_cons_of_ws h]
      exact ih.trans (List.suffix_cons c cs)
    · rw [skipWhitespace_cons_of_not_ws (by simpa using h)]

theorem skipWhitespace_length (l : List Char) :
    (skipWhitespace l).length ≤ l.length :=
  (skipWhitespace_suffix l).length_le

/-- The head of the remainder after `skip_whitespace` is not whitespace. -/
theorem skipWhitespace_head_not_ws {l : List Char} {c : Char} {cs : List Char}
    (h : skipWhitespace l = c :: cs) : c.isWhitespace = false := by
  induction l with
  | nil => simp [skipWhitespace] at h
  | cons d ds ih =>
    by_cases hd : d.isWhitespace
    · rw [skipWhitespace_cons_of_ws hd] at h
      exact ih h
    · rw [skipWhitespace_cons_of_not_ws (by simpa using hd)] at h
      cases h
      simpa using hd

theorem spanDigits_cons_digit {c : Char} (h : c.isDigit = true) (l : List Char) :
    spanDigits (c :: l) = (c :: (spanDigits l).1, (spanDigits l).2) := by
  simp [spanDigits, h]

theorem spanDigits_cons_not_digit {c : Char} (h : c.isDigit = false) (l : List Char) :
    spanDigits (c :: l) = ([], c :: l) := by
  simp [spanDigits, h]

/-- A digit run followed by a non-digit boundary is spanned exactly. -/
theorem spanDigits_append {d : List Char} (hd : ∀ x ∈ d, x.isDigit = true)
    (r : List Char) :
    spanDigits (d ++ r) = (d ++ (spanDigits r).1, (spanDigits r).2) := by
  induction d with
  | nil => simp
  | cons c cs ih =>
    have hc : c.isDigit = true := hd c (by simp)
    have ih' := ih (fun x hx => hd x (by simp [hx]))
    simp [spanDigits_cons_digit hc, ih']

/-- The remainder of `spanDigits` is no longer than the input. -/
theorem spanDigits_snd_length (l : List Char) :
    (spanDigits l).2.length ≤ l.length := by
  induction l with
  | nil => simp [spanDigits]
  | cons c cs ih =>
    by_cases h : c.isDigit
    · rw [spanDigits_cons_digit (by simpa using h)]
      exact le_trans ih (by simp)
    · rw [spanDigits_cons_not_digit (by simpa using h)]

/-- Lexing a nonempty digit run at the head of the input, with no digit
immediately after it, yields the `INTEGER` token of its base-10 value. -/
theorem getNextToken_digits {d : List Char} (hne : d ≠ [])
    (hd : ∀ x ∈ d, x.isDigit = true) {r : List Char}
    (hr : ∀ x ∈ r.head?, x.isDigit = false) :
    getNextToken (d ++ r) = .ok (⟨.INTEGER, (digitsToNat d : Int)⟩, r) := by
  obtain ⟨c, cs, rfl⟩ : ∃ c cs, d = c :: cs := by
    cases d with
    | nil => exact absurd rfl hne
    | cons c cs => exact ⟨c, cs, rfl⟩
  have hc : c.isDigit = true := hd c (by simp)
  have hspanr : spanDigits r = ([], r) := by
    cases r with
    | nil => simp [spanDigits]
    | cons x xs => exact spanDigits_cons_not_digit (hr x (by simp)) xs
  have hspan : spanDigits ((c :: cs) ++ r) = (c :: cs, r) := by
    rw [spanDigits_append hd r, hspanr]
    simp
  rw [getNextToken]
  simp only [List.cons_append] at hspan ⊢
  rw [skipWhitespace_cons_of_not_ws (isWhitespace_eq_false_of_isDigit hc)]
  simp [hc, hspan]

/-- Lexing from a whitespace character is lexing from the next one. -/
theorem getNextToken_cons_ws {c : Char} (h : c.isWhitespace = true) (l : List Char) :
    getNextToken (c :: l) = getNextToken l := by
  rw [getNextToken, getNextToken, skipWhitespace_cons_of_ws h]

/-- Parsing the token stream INTEGER, OP, INTEGER, EOF yields the single
`BinOp` tree with the two literals as children, for each of the four
operators. -/
theorem expr_two_lits (m : Nat) (a b : Int) (opTok : Token)
    (hop : opTok.type = .PLUS ∨ opTok.type = .MINUS ∨
      opTok.type = .MUL ∨ opTok.type = .DIV)
    (r0 r1 r2 : List Char)
    (h0 : getNextToken r0 = .ok (opTok, r1))
    (h1 : getNextToken r1 = .ok (⟨.INTEGER, b⟩, r2))
    (h2 : getNextToken r2 = .ok (⟨.EOF, 0⟩, [])) :
    runRule (m + 5) .expr ⟨⟨.INTEGER, a⟩, r0⟩ =
      some (.ok (.binOp (.num ⟨.INTEGER, a⟩) opTok (.num ⟨.INTEGER, b⟩),
        ⟨⟨.EOF, 0⟩, []⟩)) := by
  rcases hop with hop | hop | hop | hop <;>
    simp [runRule, eat, h0, h1, h2, hop]

/-- Running the whole pipeline on a text of the shape
literal, space, operator, space, literal reduces to the interpreter's walk
of the corresponding two-leaf `BinOp` tree. -/
theorem evaluate_two_lits (d1 d2 : List Char) (op : Char) (opTok : Token)
    (hne1 : d1 ≠ []) (hne2 : d2 ≠ [])
    (hd1 : ∀ x ∈ d1, x.isDigit = true) (hd2 : ∀ x ∈ d2, x.isDigit = true)
    (hop : opTok.type = .PLUS ∨ opTok.type = .MINUS ∨
      opTok.type = .MUL ∨ opTok.type = .DIV)
    (hlexop : ∀ r, getNextToken (op :: r) = .ok (opTok, r)) :
    evaluate (String.mk (d1 ++ ' ' :: op :: ' ' :: d2)) =
      visit (.binOp (.num ⟨.INTEGER, (digitsToNat d1 : Int)⟩) opTok
        (.num ⟨.INTEGER, (digitsToNat d2 : Int)⟩)) := by
  have hfirst : getNextToken (d1 ++ ' ' :: op :: ' ' :: d2) =
      .ok (⟨.INTEGER, (digitsToNat d1 : Int)⟩, ' ' :: op :: ' ' :: d2) :=
    getNextToken_digits hne1 hd1 (by intro x hx; simp at hx; subst hx; decide)
  have h1 : getNextToken (' ' :: d2) = .ok (⟨.INTEGER, (digitsToNat d2 : Int)⟩, []) := by
    rw [getNextToken_cons_ws (by decide)]
    have := getNextToken_digits hne2 hd2 (r := []) (by intro x hx; simp at hx)
    simpa using this
  have h0 : getNextToken (' ' :: op :: ' ' :: d2) = .ok (opTok, ' ' :: d2) := by
    rw [getNextToken_cons_ws (by decide), hlexop]
  have hemp : (d1 ++ ' ' :: op :: ' ' :: d2).isEmpty = false := by
    cases d1 with
    | nil => exact absurd rfl hne1
    | cons c cs => rfl
  rw [evaluate, evaluateWith, parseWith, fuelBudget]
  simp only []
  rw [mkParser, hfirst]
  simp only [hemp]
  rw [expr_two_lits (4 * (String.mk (d1 ++ ' ' :: op :: ' ' :: d2)).data.length) _ _
    opTok hop _ _ _ h0 h1 rfl]
  simp

theorem getNextToken_consumed {cs : List Char} {t : Token} {r : List Char}
    (h : getNextToken cs = .ok (t, r)) :
    (t.type = .EOF ∧ r = []) ∨ r.length < cs.length := by
  rw [getNextToken] at h
  cases hsk : skipWhitespace cs with
  | nil =>
    rw [hsk] at h
    cases h
    exact Or.inl ⟨rfl, rfl⟩
  | cons c rest =>
    rw [hsk] at h
    dsimp only at h
    have hlen : rest.length + 1 ≤ cs.length := by
      have := (skipWhitespace_suffix cs).length_le
      rw [hsk] at this
      simpa using this
    right
    by_cases hd : c.isDigit = true
    · rw [if_pos hd] at h
      cases h
      have hspan : (spanDigits (c :: rest)).2.length ≤ rest.length := by
        rw [spanDigits_cons_digit hd]
        exact spanDigits_snd_length rest
      omega
    · rw [if_neg (by simpa using hd)] at h
      repeat' split at h
      all_goals first
        | (cases h; omega)
        | simp at h

theorem eat_ok {t : TokenType} {s s1 : ParserState} (h : eat t s = .ok s1) :
    s.currentToken.type = t ∧ getNextToken s.rest = .ok (s1.currentToken, s1.rest) := by
  rw [eat] at h
  by_cases hc : s.currentToken.type = t
  · rw [if_pos hc] at h
    cases hlex : getNextToken s.rest with
    | error e => rw [hlex] at h; cases h
    | ok p =>
      obtain ⟨t1, r1⟩ := p
      rw [hlex] at h
      cases h
      exact ⟨hc, by simpa using hlex⟩
  · rw [if_neg hc] at h
    cases h

/-- A successful `eat` of a non-`EOF` token type strictly decreases the
remaining-input measure: the consumed lookahead accounts for the decrease
even when the replacement token was lexed from whitespace only. -/
theorem eat_remaining_lt {t : TokenType} {s s1 : ParserState}
    (h : eat t s = .ok s1) (ht : t ≠ .EOF) :
    s1.remaining < s.remaining := by
  obtain ⟨hc, hlex⟩ := eat_ok h
  rcases getNextToken_consumed hlex with ⟨hEOF, hnil⟩ | hlt
  · simp only [ParserState.remaining]
    rw [hEOF, hnil, hc, if_pos rfl, if_neg ht]
    simp
  · simp only [ParserState.remaining]
    rw [hc, if_neg ht]
    split <;> omega

/-- The operator dispatch inside the `term` and `expr` loops also strictly
decreases the measure when it succeeds. -/
theorem eatIf_remaining_lt {t1 t2 : TokenType} {s s1 : ParserState}
    (h : (if s.currentToken.type = t1 then eat t1 s else eat t2 s) = .ok s1)
    (h1 : t1 ≠ .EOF) (h2 : t2 ≠ .EOF) :
    s1.remaining < s.remaining := by
  split at h
  · exact eat_remaining_lt h h1
  · exact eat_remaining_lt h h2

set_option maxHeartbeats 1000000 in
/-- More fuel never changes a parse that already returned. -/
theorem runRule_mono (f : Nat) (r : Rule) (s : ParserState) :
    ∀ o, runRule f r s = some o → runRule (f + 1) r s = some o := by
  induction f, r, s using runRule.induct <;> intro o h <;>
    rw [runRule.eq_def] at h <;> rw [runRule.eq_def] <;> simp_all <;>
    (subst h; rfl)

theorem runRule_mono_le {f g : Nat} (hfg : f ≤ g) {r : Rule} {s : ParserState}
    {o : Except Err (ASTNode × ParserState)} (h : runRule f r s = some o) :
    runRule g r s = some o := by
  induction g with
  | zero =>
    have : f = 0 := Nat.le_zero.mp hfg
    subst this
    exact h
  | succ g ih =>
    rcases Nat.lt_or_ge f (g + 1) with hlt | hge
    · exact runRule_mono g r s o (ih (Nat.lt_succ_iff.mp hlt))
    · have : f = g + 1 := Nat.le_antisymm hfg hge
      subst this
      exact h



set_option maxHeartbeats 1000000 in
/-- The parser only consumes input: a successful run ends in a state whose
remaining measure is no larger than the starting one. -/
theorem runRule_remaining_le (f : Nat) (r : Rule) (s : ParserState) :
    ∀ n s1, runRule f r s = some (.ok (n, s1)) →
      s1.remaining ≤ s.remaining := by
  induction f, r, s using runRule.induct with
  | case1 r s => intro n s1 h; rw [runRule.eq_def] at h; simp at h
  | case2 fuel s htype e heat => intro n s1 h; rw [runRule.eq_def] at h; simp_all
  | case3 fuel s htype s1' heat =>
    intro n s1 h
    rw [runRule.eq_def] at h
    simp_all
    obtain ⟨-, rfl⟩ := h
    exact le_of_lt (eat_remaining_lt heat (by decide))
  | case4 fuel s hni hlp e heat => intro n s1 h; rw [runRule.eq_def] at h; simp_all
  | case5 fuel s hni hlp s1' heat hrec ih =>
    intro n s1 h; rw [runRule.eq_def] at h; simp_all
  | case6 fuel s hni hlp s1' heat e hrec ih =>
    intro n s1 h; rw [runRule.eq_def] at h; simp_all
  | case7 fuel s hni hlp s1' heat node s2 hrec e heat2 ih =>
    intro n s1 h; rw [runRule.eq_def] at h; simp_all
  | case8 fuel s hni hlp s1' heat node s2 hrec s3 heat2 ih =>
    intro n s1 h
    rw [runRule.eq_def] at h
    simp_all
    obtain ⟨-, rfl⟩ := h
    have h1 := eat_remaining_lt heat (by decide)
    have h3 := eat_remaining_lt heat2 (by decide)
    omega
  | case9 fuel s hni hlp2 =>
    intro n s1 h
    rw [runRule.eq_def] at h
    simp_all
  | case10 fuel s hrec ih => intro n s1 h; rw [runRule.eq_def] at h; simp_all
  | case11 fuel s e hrec ih => intro n s1 h; rw [runRule.eq_def] at h; simp_all
  | case12 fuel s node s2 hrec ih1 ih2 =>
    intro n s1 h
    rw [runRule.eq_def] at h
    simp_all
    omega
  | case13 fuel s node hcond e heat =>
    intro n s1 h; rw [runRule.eq_def] at h; simp_all
  | case14 fuel s node hcond s1' heat hrec ihf =>
    intro n s1 h; rw [runRule.eq_def] at h; simp_all
  | case15 fuel s node hcond s1' heat e hrec ihf =>
    intro n s1 h; rw [runRule.eq_def] at h; simp_all
  | case16 fuel s node hcond s1' heat rhs s2 hrec ihf ihl =>
    intro n s1 h
    rw [runRule.eq_def] at h
    simp_all
    have h0 := eatIf_remaining_lt heat (by decide) (by decide)
    omega
  | case17 fuel s node hcond =>
    intro n s1 h
    rw [runRule.eq_def] at h
    simp_all
  | case18 fuel s hrec ih => intro n s1 h; rw [runRule.eq_def] at h; simp_all
  | case19 fuel s e hrec ih => intro n s1 h; rw [runRule.eq_def] at h; simp_all
  | case20 fuel s node s2 hrec ih1 ih2 =>
    intro n s1 h
    rw [runRule.eq_def] at h
    simp_all
    omega
  | case21 fuel s node hcond e heat =>
    intro n s1 h; rw [runRule.eq_def] at h; simp_all
  | case22 fuel s node hcond s1' heat hrec iht =>
    intro n s1 h; rw [runRule.eq_def] at h; simp_all
  | case23 fuel s node hcond s1' heat e hrec iht =>
    intro n s1 h; rw [runRule.eq_def] at h; simp_all
  | case24 fuel s node hcond s1' heat rhs s2 hrec iht ihl =>
    intro n s1 h
    rw [runRule.eq_def] at h
    simp_all
    have h0 := eatIf_remaining_lt heat (by decide) (by decide)
    omega
  | case25 fuel s node hcond =>
    intro n s1 h
    rw [runRule.eq_def] at h
    simp_all



set_option maxHeartbeats 1000000 in
/-- Fuel sufficiency: with at least `ruleNeed` fuel (linear in the
remaining input) the parser never runs out — the recursive descent strictly
decreases the remaining input at every nesting or loop step. -/
theorem runRule_enough (f : Nat) (r : Rule) (s : ParserState) :
    ruleNeed r s.remaining ≤ f → runRule f r s ≠ none := by
  induction f, r, s using runRule.induct with
  | case1 r s =>
    intro hle
    cases r <;> simp only [ruleNeed] at hle <;> omega
  | case2 fuel s htype e heat =>
    intro hle; rw [runRule.eq_def]; simp_all
  | case3 fuel s htype s1' heat =>
    intro hle; rw [runRule.eq_def]; simp_all
  | case4 fuel s hni hlp e heat =>
    intro hle; rw [runRule.eq_def]; simp_all
  | case5 fuel s hni hlp s1' heat hrec ih =>
    intro hle
    have hlt := eat_remaining_lt heat (by decide)
    exact absurd hrec (ih (by simp only [ruleNeed] at hle ⊢; omega))
  | case6 fuel s hni hlp s1' heat e hrec ih =>
    intro hle; rw [runRule.eq_def]; simp_all
  | case7 fuel s hni hlp s1' heat node s2 hrec e heat2 ih =>
    intro hle; rw [runRule.eq_def]; simp_all
  | case8 fuel s hni hlp s1' heat node s2 hrec s3 heat2 ih =>
    intro hle; rw [runRule.eq_def]; simp_all
  | case9 fuel s hni hlp2 =>
    intro hle; rw [runRule.eq_def]; simp_all
  | case10 fuel s hrec ih =>
    intro hle
    exact absurd hrec (ih (by simp only [ruleNeed] at hle ⊢; omega))
  | case11 fuel s e hrec ih =>
    intro hle; rw [runRule.eq_def]; simp_all
  | case12 fuel s node s2 hrec ih1 ih2 =>
    intro hle
    rw [runRule.eq_def]
    simp only [hrec]
    have hrem := runRule_remaining_le fuel .factor s node s2 hrec
    exact ih2 (by simp only [ruleNeed] at hle ⊢; omega)
  | case13 fuel s node hcond e heat =>
    intro hle; rw [runRule.eq_def]; simp_all
  | case14 fuel s node hcond s1' heat hrec ihf =>
    intro hle
    have hlt := eatIf_remaining_lt heat (by decide) (by decide)
    exact absurd hrec (ihf (by simp only [ruleNeed] at hle ⊢; omega))
  | case15 fuel s node hcond s1' heat e hrec ihf =>
    intro hle; rw [runRule.eq_def]; simp_all
  | case16 fuel s node hcond s1' heat rhs s2 hrec ihf ihl =>
    intro hle
    rw [runRule.eq_def]
    simp only [if_pos hcond, heat, hrec]
    have h0 := eatIf_remaining_lt heat (by decide) (by decide)
    have h1 := runRule_remaining_le fuel .factor s1' rhs s2 hrec
    exact ihl (by simp only [ruleNeed] at hle ⊢; omega)
  | case17 fuel s node hcond =>
    intro hle; rw [runRule.eq_def]; simp_all
  | case18 fuel s hrec ih =>
    intro hle
    exact absurd hrec (ih (by simp only [ruleNeed] at hle ⊢; omega))
  | case19 fuel s e hrec ih =>
    intro hle; rw [runRule.eq_def]; simp_all
  | case20 fuel s node s2 hrec ih1 ih2 =>
    intro hle
    rw [runRule.eq_def]
    simp only [hrec]
    have hrem := runRule_remaining_le fuel .term s node s2 hrec
    exact ih2 (by simp only [ruleNeed] at hle ⊢; omega)
  | case21 fuel s node hcond e heat =>
    intro hle; rw [runRule.eq_def]; simp_all
  | case22 fuel s node hcond s1' heat hrec iht =>
    intro hle
    have hlt := eatIf_remaining_lt heat (by decide) (by decide)
    exact absurd hrec (iht (by simp only [ruleNeed] at hle ⊢; omega))
  | case23 fuel s node hcond s1' heat e hrec iht =>
    intro hle; rw [runRule.eq_def]; simp_all
  | case24 fuel s node hcond s1' heat rhs s2 hrec iht ihl =>
    intro hle
    rw [runRule.eq_def]
    simp only [if_pos hcond, heat, hrec]
    have h0 := eatIf_remaining_lt heat (by decide) (by decide)
    have h1 := runRule_remaining_le fuel .term s1' rhs s2 hrec
    exact ihl (by simp only [ruleNeed] at hle ⊢; omega)
  | case25 fuel s node hcond =>
    intro hle; rw [runRule.eq_def]; simp_all



theorem mkParser_remaining {cs : List Char} {s : ParserState}
    (h : mkParser cs = .ok s) : s.remaining ≤ cs.length := by
  rw [mkParser] at h
  cases hlex : getNextToken cs with
  | error e => rw [hlex] at h; cases h
  | ok p =>
    obtain ⟨t, r⟩ := p
    rw [hlex] at h
    cases h
    rcases getNextToken_consumed hlex with ⟨hEOF, rfl⟩ | hlt
    · simp [ParserState.remaining, hEOF]
    · simp only [ParserState.remaining]
      split <;> omega

/-- Above the linear fuel budget, the fuel does not matter. -/
theorem parseWith_fuel {fuel : Nat} {text : String}
    (h : 4 * text.data.length + 5 ≤ fuel) :
    parseWith fuel text = parseWith (fuelBudget text) text := by
  rw [parseWith, parseWith, fuelBudget]
  by_cases he : text.data.isEmpty = true
  · simp [he]
  · simp only [he, if_false]
    cases hp : mkParser text.data with
    | error e => rfl
    | ok s =>
      have hs := mkParser_remaining hp
      have hbound : ruleNeed .expr s.remaining ≤ 4 * text.data.length + 5 := by
        simp only [ruleNeed]; omega
      cases hr : runRule (4 * text.data.length + 5) .expr s with
      | none => exact absurd hr (runRule_enough _ _ _ hbound)
      | some o =>
        have h2 : runRule fuel .expr s = some o :=
          runRule_mono_le h hr
        simp only [hr, h2]

/-- Claim C8: the whole pipeline terminates on every finite input: the
recursive descent consumes fuel bounded linearly by the input length, so
beyond the budget `4 * length + 5` the result no longer depends on the
fuel, and within that budget the parser always returns (never runs out). -/
theorem claim8_termination (text : String) (fuel : Nat)
    (hfuel : 4 * text.data.length + 5 ≤ fuel) :
    evaluateWith fuel text = evaluate text
    ∧ (∀ s, mkParser text.data = .ok s → runRule fuel .expr s ≠ none) := by
  constructor
  · rw [evaluate, evaluateWith, evaluateWith, parseWith_fuel hfuel]
  · intro s hs
    have hrem := mkParser_remaining hs
    exact runRule_enough fuel .expr s (by simp only [ruleNeed]; omega)

/-- Witness for C8 at a concrete input and fuel. -/
theorem claim8_witness :
    evaluateWith 100 "1 + 2" = evaluate "1 + 2" :=
  (claim8_termination "1 + 2" 100 (by decide)).1




theorem isDigit_eq_false_of_isWhitespace {c : Char} (h : c.isWhitespace = true) :
    c.isDigit = false := by
  rcases Bool.eq_false_or_eq_true c.isDigit with hd | hd
  · exact absurd (isWhitespace_eq_false_of_isDigit hd) (by simp [h])
  · exact hd

theorem getNextToken_congr {r1 r2 : List Char}
    (h : skipWhitespace r1 = skipWhitespace r2) :
    getNextToken r1 = getNextToken r2 := by
  rw [getNextToken, getNextToken, h]

theorem skipWhitespace_append_of_nil {a : List Char}
    (h : skipWhitespace a = []) (X : List Char) :
    skipWhitespace (a ++ X) = skipWhitespace X := by
  induction a with
  | nil => rfl
  | cons d ds ih =>
    by_cases hd : d.isWhitespace = true
    · rw [skipWhitespace_cons_of_ws hd] at h
      rw [List.cons_append, skipWhitespace_cons_of_ws hd]
      exact ih h
    · rw [skipWhitespace_cons_of_not_ws (by simpa using hd)] at h
      cases h

theorem skipWhitespace_append_of_cons {a : List Char} {d : Char} {ds : List Char}
    (h : skipWhitespace a = d :: ds) (X : List Char) :
    skipWhitespace (a ++ X) = d :: ds ++ X := by
  induction a with
  | nil => simp [skipWhitespace] at h
  | cons e es ih =>
    by_cases he : e.isWhitespace = true
    · rw [skipWhitespace_cons_of_ws he] at h
      rw [List.cons_append, skipWhitespace_cons_of_ws he]
      exact ih h
    · rw [skipWhitespace_cons_of_not_ws (by simpa using he)] at h
      cases h
      rw [List.cons_append,
        skipWhitespace_cons_of_not_ws (by simpa using he)]

/-- Decompose a list at its first non-digit character. -/
theorem exists_split_at_non_digit {l : List Char}
    (h : ¬∀ x ∈ l, x.isDigit = true) :
    ∃ dd nd tl, l = dd ++ nd :: tl ∧ (∀ x ∈ dd, x.isDigit = true) ∧
      nd.isDigit = false := by
  induction l with
  | nil => exact absurd (by intro x hx; cases hx) h
  | cons d ds ih =>
    by_cases hd : d.isDigit = true
    · by_cases hds : ∀ x ∈ ds, x.isDigit = true
      · refine absurd ?_ h
        intro x hx
        rcases List.mem_cons.mp hx with rfl | hx
        exacts [hd, hds x hx]
      · obtain ⟨dd, nd, tl, heq, hdd, hnd⟩ := ih hds
        refine ⟨d :: dd, nd, tl, by rw [heq]; rfl, ?_, hnd⟩
        intro x hx
        rcases List.mem_cons.mp hx with rfl | hx
        exacts [hd, hdd x hx]
    · refine ⟨[], d, ds, rfl, ?_, by simpa using hd⟩
      intro x hx
      cases hx

theorem lastDigit_of_suffix {a b : List Char} (h : b <:+ a) (hb : b ≠ [])
    (hd : lastDigit b = true) : lastDigit a = true := by
  obtain ⟨pre, rfl⟩ := h
  rw [lastDigit, List.getLast?_append_of_ne_nil pre hb]
  exact hd

theorem lastDigit_cons_of {d : Char} {ds : List Char}
    (h : lastDigit ds = true) : lastDigit (d :: ds) = true := by
  cases ds with
  | nil => simp [lastDigit] at h
  | cons e es =>
    rw [lastDigit] at h ⊢
    rw [List.getLast?_cons_cons]
    exact h

theorem lastDigit_of_all {l : List Char} (hne : l ≠ [])
    (h : ∀ x ∈ l, x.isDigit = true) : lastDigit l = true := by
  induction l with
  | nil => exact absurd rfl hne
  | cons d ds ih =>
    cases ds with
    | nil => simp [lastDigit, h d (by simp)]
    | cons e es =>
      exact lastDigit_cons_of (ih (by simp) (fun x hx => h x (by simp [hx])))



/-- One lexing step from the two aligned inputs (same prefix `d :: ds`,
whitespace `c` inserted before `l2` in the second) yields the same token,
with remainders still related by `InsAt`. -/
theorem getNextToken_insAt_head {c : Char} {l2 : List Char}
    (hc : c.isWhitespace = true) {d : Char} {ds : List Char}
    (hdw : d.isWhitespace = false)
    (hbnd : ¬(lastDigit (d :: ds) = true ∧ headDigit l2 = true)) :
    (∃ e, getNextToken ((d :: ds) ++ l2) = .error e ∧
      getNextToken ((d :: ds) ++ c :: l2) = .error e) ∨
    (∃ t r1' r2', getNextToken ((d :: ds) ++ l2) = .ok (t, r1') ∧
      getNextToken ((d :: ds) ++ c :: l2) = .ok (t, r2') ∧
      InsAt c l2 r1' r2') := by
  by_cases hd : d.isDigit = true
  · by_cases hall : ∀ x ∈ d :: ds, x.isDigit = true
    · have hlast : lastDigit (d :: ds) = true := lastDigit_of_all (by simp) hall
      have hl2 : ∀ x ∈ l2.head?, x.isDigit = false := by
        intro x hx
        rcases Bool.eq_false_or_eq_true x.isDigit with h1 | h1
        · exfalso
          apply hbnd
          refine ⟨hlast, ?_⟩
          cases l2 with
          | nil => simp at hx
          | cons y ys =>
            simp only [List.head?] at hx
            cases hx
            simpa [headDigit] using h1
        · exact h1
      refine Or.inr ⟨⟨.INTEGER, (digitsToNat (d :: ds) : Int)⟩, l2, c :: l2,
        getNextToken_digits (by simp) hall hl2,
        getNextToken_digits (by simp) hall ?_, Or.inr ⟨[], by simp, by simp, ?_⟩⟩
      · intro x hx
        simp only [List.head?] at hx
        cases hx
        exact isDigit_eq_false_of_isWhitespace hc
      · simp [lastDigit]
    · obtain ⟨dd, nd, tl, heq, hdd, hnd⟩ := exists_split_at_non_digit hall
      have hsuf : nd :: tl <:+ d :: ds := ⟨dd, heq.symm⟩
      have hbnd2 : ¬(lastDigit (nd :: tl) = true ∧ headDigit l2 = true) := by
        intro hx
        exact hbnd ⟨lastDigit_of_suffix hsuf (by simp) hx.1, hx.2⟩
      have hg : ∀ X, getNextToken ((d :: ds) ++ X) =
          .ok (⟨.INTEGER, (digitsToNat dd : Int)⟩, nd :: (tl ++ X)) := by
        intro X
        rw [getNextToken]
        rw [show skipWhitespace ((d :: ds) ++ X) = d :: (ds ++ X) by
          rw [List.cons_append, skipWhitespace_cons_of_not_ws hdw]]
        have hspan : spanDigits (d :: (ds ++ X)) = (dd, nd :: (tl ++ X)) := by
          have heq2 : d :: (ds ++ X) = dd ++ (nd :: (tl ++ X)) := by
            rw [← List.cons_append, heq]
            simp
          rw [heq2, spanDigits_append hdd, spanDigits_cons_not_digit hnd]
          simp
        simp [hd, hspan]
      exact Or.inr ⟨⟨.INTEGER, (digitsToNat dd : Int)⟩, nd :: (tl ++ l2),
        nd :: (tl ++ c :: l2), hg l2, hg (c :: l2),
        Or.inr ⟨nd :: tl, by simp, by simp, hbnd2⟩⟩
  · have hg : ∀ X, getNextToken ((d :: ds) ++ X) =
        (if d = '+' then .ok (⟨.PLUS, 0⟩, ds ++ X)
         else if d = '-' then .ok (⟨.MINUS, 0⟩, ds ++ X)
         else if d = '*' then .ok (⟨.MUL, 0⟩, ds ++ X)
         else if d = '/' then .ok (⟨.DIV, 0⟩, ds ++ X)
         else if d = '(' then .ok (⟨.LPAREN, 0⟩, ds ++ X)
         else if d = ')' then .ok (⟨.RPAREN, 0⟩, ds ++ X)
         else .error (.lexError "Invalid character")) := by
      intro X
      rw [getNextToken]
      rw [show skipWhitespace ((d :: ds) ++ X) = d :: (ds ++ X) by
        rw [List.cons_append, skipWhitespace_cons_of_not_ws hdw]]
      simp only [hd]
      rfl
    have hbnd2 : ¬(lastDigit ds = true ∧ headDigit l2 = true) := fun hx =>
      hbnd ⟨lastDigit_cons_of hx.1, hx.2⟩
    have hins : InsAt c l2 (ds ++ l2) (ds ++ c :: l2) :=
      Or.inr ⟨ds, rfl, rfl, hbnd2⟩
    by_cases h1 : d = '+'
    · exact Or.inr ⟨⟨.PLUS, 0⟩, ds ++ l2, ds ++ c :: l2,
        by rw [hg, if_pos h1], by rw [hg, if_pos h1], hins⟩
    by_cases h2 : d = '-'
    · exact Or.inr ⟨⟨.MINUS, 0⟩, ds ++ l2, ds ++ c :: l2,
        by rw [hg, if_neg h1, if_pos h2], by rw [hg, if_neg h1, if_pos h2], hins⟩
    by_cases h3 : d = '*'
    · exact Or.inr ⟨⟨.MUL, 0⟩, ds ++ l2, ds ++ c :: l2,
        by rw [hg, if_neg h1, if_neg h2, if_pos h3],
        by rw [hg, if_neg h1, if_neg h2, if_pos h3], hins⟩
    by_cases h4 : d = '/'
    · exact Or.inr ⟨⟨.DIV, 0⟩, ds ++ l2, ds ++ c :: l2,
        by rw [hg, if_neg h1, if_neg h2, if_neg h3, if_pos h4],
        by rw [hg, if_neg h1, if_neg h2, if_neg h3, if_pos h4], hins⟩
    by_cases h5 : d = '('
    · exact Or.inr ⟨⟨.LPAREN, 0⟩, ds ++ l2, ds ++ c :: l2,
        by rw [hg, if_neg h1, if_neg h2, if_neg h3, if_neg h4, if_pos h5],
        by rw [hg, if_neg h1, if_neg h2, if_neg h3, if_neg h4, if_pos h5], hins⟩
    by_cases h6 : d = ')'
    · exact Or.inr ⟨⟨.RPAREN, 0⟩, ds ++ l2, ds ++ c :: l2,
        by rw [hg, if_neg h1, if_neg h2, if_neg h3, if_neg h4, if_neg h5, if_pos h6],
        by rw [hg, if_neg h1, if_neg h2, if_neg h3, if_neg h4, if_neg h5, if_pos h6],
        hins⟩
    exact Or.inl ⟨.lexError "Invalid character",
      by rw [hg, if_neg h1, if_neg h2, if_neg h3, if_neg h4, if_neg h5, if_neg h6],
      by rw [hg, if_neg h1, if_neg h2, if_neg h3, if_neg h4, if_neg h5, if_neg h6]⟩



/-- One lexing step preserves the insertion relation: both inputs yield the
same error, or the same token with still-related remainders. -/
theorem getNextToken_insAt {c : Char} {l2 r1 r2 : List Char}
    (hc : c.isWhitespace = true) (h : InsAt c l2 r1 r2) :
    (∃ e, getNextToken r1 = .error e ∧ getNextToken r2 = .error e) ∨
    (∃ t r1' r2', getNextToken r1 = .ok (t, r1') ∧
      getNextToken r2 = .ok (t, r2') ∧ InsAt c l2 r1' r2') := by
  rcases h with rfl | ⟨a, rfl, rfl, hbnd⟩
  · cases hres : getNextToken r1 with
    | error e => exact Or.inl ⟨e, rfl, rfl⟩
    | ok p =>
      obtain ⟨t, r⟩ := p
      exact Or.inr ⟨t, r, r, rfl, rfl, Or.inl rfl⟩
  · cases hsk : skipWhitespace a with
    | nil =>
      have e1 : getNextToken (a ++ l2) = getNextToken l2 :=
        getNextToken_congr (by rw [skipWhitespace_append_of_nil hsk])
      have e2 : getNextToken (a ++ c :: l2) = getNextToken l2 :=
        getNextToken_congr (by
          rw [skipWhitespace_append_of_nil hsk, skipWhitespace_cons_of_ws hc])
      cases hres : getNextToken l2 with
      | error e => exact Or.inl ⟨e, by rw [e1, hres], by rw [e2, hres]⟩
      | ok p =>
        obtain ⟨t, r⟩ := p
        exact Or.inr ⟨t, r, r, by rw [e1, hres], by rw [e2, hres], Or.inl rfl⟩
    | cons d ds =>
      have hdw : d.isWhitespace = false := skipWhitespace_head_not_ws hsk
      have hsuf : d :: ds <:+ a := by rw [← hsk]; exact skipWhitespace_suffix a
      have hbnd2 : ¬(lastDigit (d :: ds) = true ∧ headDigit l2 = true) := by
        intro hx
        exact hbnd ⟨lastDigit_of_suffix hsuf (by simp) hx.1, hx.2⟩
      have e1 : getNextToken (a ++ l2) = getNextToken ((d :: ds) ++ l2) :=
        getNextToken_congr (by
          rw [skipWhitespace_append_of_cons hsk, List.cons_append,
            skipWhitespace_cons_of_not_ws hdw])
      have e2 : getNextToken (a ++ c :: l2) = getNextToken ((d :: ds) ++ c :: l2) :=
        getNextToken_congr (by
          rw [skipWhitespace_append_of_cons hsk, List.cons_append,
            skipWhitespace_cons_of_not_ws hdw])
      rcases getNextToken_insAt_head hc hdw hbnd2 with
        ⟨e, g1, g2⟩ | ⟨t, r1', r2', g1, g2, hins⟩
      · exact Or.inl ⟨e, by rw [e1, g1], by rw [e2, g2]⟩
      · exact Or.inr ⟨t, r1', r2', by rw [e1, g1], by rw [e2, g2], hins⟩

/-- `eat` preserves the insertion relation between parser states. -/
theorem eat_insAt {c : Char} {l2 : List Char} (hc : c.isWhitespace = true)
    {t : TokenType} {s1 s2 : ParserState}
    (hcur : s1.currentToken = s2.currentToken)
    (hrest : InsAt c l2 s1.rest s2.rest) :
    (∃ e, eat t s1 = .error e ∧ eat t s2 = .error e) ∨
    (∃ s1' s2', eat t s1 = .ok s1' ∧ eat t s2 = .ok s2' ∧
      s1'.currentToken = s2'.currentToken ∧ InsAt c l2 s1'.rest s2'.rest) := by
  rw [eat, eat, hcur]
  by_cases hty : s2.currentToken.type = t
  · rw [if_pos hty, if_pos hty]
    rcases getNextToken_insAt hc hrest with
      ⟨e, g1, g2⟩ | ⟨tk, r1', r2', g1, g2, hins⟩
    · rw [g1, g2]
      exact Or.inl ⟨e, rfl, rfl⟩
    · rw [g1, g2]
      exact Or.inr ⟨⟨tk, r1'⟩, ⟨tk, r2'⟩, rfl, rfl, rfl, hins⟩
  · rw [if_neg hty, if_neg hty]
    exact Or.inl ⟨.parseError "Invalid syntax", rfl, rfl⟩



set_option maxHeartbeats 2000000 in
/-- The parser cannot observe whitespace inserted between tokens: runs from
two states with the same lookahead and `InsAt`-related remainders stay in
lock-step — same fuel use, same error, or same tree. -/
theorem runRule_insAt {c : Char} {l2 : List Char} (hc : c.isWhitespace = true) :
    ∀ (f : Nat) (r : Rule) (s1 s2 : ParserState),
      s1.currentToken = s2.currentToken → InsAt c l2 s1.rest s2.rest →
      (runRule f r s1 = none ∧ runRule f r s2 = none) ∨
      (∃ e, runRule f r s1 = some (.error e) ∧ runRule f r s2 = some (.error e)) ∨
      (∃ n s1' s2', runRule f r s1 = some (.ok (n, s1')) ∧
        runRule f r s2 = some (.ok (n, s2')) ∧
        s1'.currentToken = s2'.currentToken ∧ InsAt c l2 s1'.rest s2'.rest) := by
  intro f
  induction f with
  | zero => intro r s1 s2 _ _; exact Or.inl ⟨rfl, rfl⟩
  | succ f ih =>
    intro r s1 s2 hcur hrest
    cases r with
    | factor =>
      by_cases hty : s2.currentToken.type = .INTEGER
      · rcases eat_insAt hc (t := .INTEGER) hcur hrest with
          ⟨e, g1, g2⟩ | ⟨s1', s2', g1, g2, hcur', hrest'⟩
        · refine Or.inr (Or.inl ⟨e, ?_, ?_⟩) <;> rw [runRule.eq_def] <;>
            simp [hcur, hty, g1, g2]
        · refine Or.inr (Or.inr ⟨.num s2.currentToken, s1', s2', ?_, ?_, hcur', hrest'⟩) <;>
            rw [runRule.eq_def] <;> simp [hcur, hty, g1, g2]
      · by_cases hlp : s2.currentToken.type = .LPAREN
        · rcases eat_insAt hc (t := .LPAREN) hcur hrest with
            ⟨e, g1, g2⟩ | ⟨s1', s2', g1, g2, hcur', hrest'⟩
          · refine Or.inr (Or.inl ⟨e, ?_, ?_⟩) <;> rw [runRule.eq_def] <;>
              simp [hcur, hty, hlp, g1, g2]
          · rcases ih .expr s1' s2' hcur' hrest' with
              ⟨n1, n2⟩ | ⟨e, n1, n2⟩ | ⟨n, t1, t2, n1, n2, hcur2, hrest2⟩
            · refine Or.inl ⟨?_, ?_⟩ <;> rw [runRule.eq_def] <;>
                simp [hcur, hty, hlp, g1, g2, n1, n2]
            · refine Or.inr (Or.inl ⟨e, ?_, ?_⟩) <;> rw [runRule.eq_def] <;>
                simp [hcur, hty, hlp, g1, g2, n1, n2]
            · rcases eat_insAt hc (t := .RPAREN) hcur2 hrest2 with
                ⟨e, g3, g4⟩ | ⟨u1, u2, g3, g4, hcur3, hrest3⟩
              · refine Or.inr (Or.inl ⟨e, ?_, ?_⟩) <;> rw [runRule.eq_def] <;>
                  simp [hcur, hty, hlp, g1, g2, n1, n2, g3, g4]
              · refine Or.inr (Or.inr ⟨n, u1, u2, ?_, ?_, hcur3, hrest3⟩) <;>
                  rw [runRule.eq_def] <;>
                  simp [hcur, hty, hlp, g1, g2, n1, n2, g3, g4]
        · refine Or.inr (Or.inr ⟨.pyNone, s1, s2, ?_, ?_, hcur, hrest⟩) <;>
            rw [runRule.eq_def] <;> simp [hcur, hty, hlp]
    | term =>
      rcases ih .factor s1 s2 hcur hrest with
        ⟨n1, n2⟩ | ⟨e, n1, n2⟩ | ⟨n, t1, t2, n1, n2, hcur2, hrest2⟩
      · refine Or.inl ⟨?_, ?_⟩ <;> rw [runRule.eq_def] <;> simp [n1, n2]
      · refine Or.inr (Or.inl ⟨e, ?_, ?_⟩) <;> rw [runRule.eq_def] <;> simp [n1, n2]
      · rcases ih (.termLoop n) t1 t2 hcur2 hrest2 with
          ⟨m1, m2⟩ | ⟨e, m1, m2⟩ | ⟨nn, u1, u2, m1, m2, hcur3, hrest3⟩
        · refine Or.inl ⟨?_, ?_⟩ <;> rw [runRule.eq_def] <;> simp [n1, n2, m1, m2]
        · refine Or.inr (Or.inl ⟨e, ?_, ?_⟩) <;> rw [runRule.eq_def] <;>
            simp [n1, n2, m1, m2]
        · refine Or.inr (Or.inr ⟨nn, u1, u2, ?_, ?_, hcur3, hrest3⟩) <;>
            rw [runRule.eq_def] <;> simp [n1, n2, m1, m2]
    | termLoop node =>
      by_cases hcond : s2.currentToken.type = .MUL ∨ s2.currentToken.type = .DIV
      · have heat :
            (∃ e, (if s2.currentToken.type = .MUL then eat .MUL s1 else eat .DIV s1) = .error e ∧
              (if s2.currentToken.type = .MUL then eat .MUL s2 else eat .DIV s2) = .error e) ∨
            (∃ s1' s2',
              (if s2.currentToken.type = .MUL then eat .MUL s1 else eat .DIV s1) = .ok s1' ∧
              (if s2.currentToken.type = .MUL then eat .MUL s2 else eat .DIV s2) = .ok s2' ∧
              s1'.currentToken = s2'.currentToken ∧ InsAt c l2 s1'.rest s2'.rest) := by
          by_cases hmul : s2.currentToken.type = .MUL
          · rw [if_pos hmul, if_pos hmul]
            exact eat_insAt hc hcur hrest
          · rw [if_neg hmul, if_neg hmul]
            exact eat_insAt hc hcur hrest
        rcases heat with ⟨e, g1, g2⟩ | ⟨s1', s2', g1, g2, hcur', hrest'⟩
        · refine Or.inr (Or.inl ⟨e, ?_, ?_⟩) <;> rw [runRule.eq_def] <;>
            simp [hcur, hcond, g1, g2]
        · rcases ih .factor s1' s2' hcur' hrest' with
            ⟨n1, n2⟩ | ⟨e, n1, n2⟩ | ⟨n, t1, t2, n1, n2, hcur2, hrest2⟩
          · refine Or.inl ⟨?_, ?_⟩ <;> rw [runRule.eq_def] <;>
              simp [hcur, hcond, g1, g2, n1, n2]
          · refine Or.inr (Or.inl ⟨e, ?_, ?_⟩) <;> rw [runRule.eq_def] <;>
              simp [hcur, hcond, g1, g2, n1, n2]
          · rcases ih (.termLoop (.binOp node s2.currentToken n)) t1 t2 hcur2 hrest2 with
              ⟨m1, m2⟩ | ⟨e, m1, m2⟩ | ⟨nn, u1, u2, m1, m2, hcur3, hrest3⟩
            · refine Or.inl ⟨?_, ?_⟩ <;> rw [runRule.eq_def] <;>
                simp [hcur, hcond, g1, g2, n1, n2, m1, m2]
            · refine Or.inr (Or.inl ⟨e, ?_, ?_⟩) <;> rw [runRule.eq_def] <;>
                simp [hcur, hcond, g1, g2, n1, n2, m1, m2]
            · refine Or.inr (Or.inr ⟨nn, u1, u2, ?_, ?_, hcur3, hrest3⟩) <;>
                rw [runRule.eq_def] <;>
                simp [hcur, hcond, g1, g2, n1, n2, m1, m2]
      · refine Or.inr (Or.inr ⟨node, s1, s2, ?_, ?_, hcur, hrest⟩) <;>
          rw [runRule.eq_def] <;> simp [hcur, hcond]
    | expr =>
      rcases ih .term s1 s2 hcur hrest with
        ⟨n1, n2⟩ | ⟨e, n1, n2⟩ | ⟨n, t1, t2, n1, n2, hcur2, hrest2⟩
      · refine Or.inl ⟨?_, ?_⟩ <;> rw [runRule.eq_def] <;> simp [n1, n2]
      · refine Or.inr (Or.inl ⟨e, ?_, ?_⟩) <;> rw [runRule.eq_def] <;> simp [n1, n2]
      · rcases ih (.exprLoop n) t1 t2 hcur2 hrest2 with
          ⟨m1, m2⟩ | ⟨e, m1, m2⟩ | ⟨nn, u1, u2, m1, m2, hcur3, hrest3⟩
        · refine Or.inl ⟨?_, ?_⟩ <;> rw [runRule.eq_def] <;> simp [n1, n2, m1, m2]
        · refine Or.inr (Or.inl ⟨e, ?_, ?_⟩) <;> rw [runRule.eq_def] <;>
            simp [n1, n2, m1, m2]
        · refine Or.inr (Or.inr ⟨nn, u1, u2, ?_, ?_, hcur3, hrest3⟩) <;>
            rw [runRule.eq_def] <;> simp [n1, n2, m1, m2]
    | exprLoop node =>
      by_cases hcond : s2.currentToken.type = .PLUS ∨ s2.currentToken.type = .MINUS
      · have heat :
            (∃ e, (if s2.currentToken.type = .PLUS then eat .PLUS s1 else eat .MINUS s1) = .error e ∧
              (if s2.currentToken.type = .PLUS then eat .PLUS s2 else eat .MINUS s2) = .error e) ∨
            (∃ s1' s2',
              (if s2.currentToken.type = .PLUS then eat .PLUS s1 else eat .MINUS s1) = .ok s1' ∧
              (if s2.currentToken.type = .PLUS then eat .PLUS s2 else eat .MINUS s2) = .ok s2' ∧
              s1'.currentToken = s2'.currentToken ∧ InsAt c l2 s1'.rest s2'.rest) := by
          by_cases hpl : s2.currentToken.type = .PLUS
          · rw [if_pos hpl, if_pos hpl]
            exact eat_insAt hc hcur hrest
          · rw [if_neg hpl, if_neg hpl]
            exact eat_insAt hc hcur hrest
        rcases heat with ⟨e, g1, g2⟩ | ⟨s1', s2', g1, g2, hcur', hrest'⟩
        · refine Or.inr (Or.inl ⟨e, ?_, ?_⟩) <;> rw [runRule.eq_def] <;>
            simp [hcur, hcond, g1, g2]
        · rcases ih .term s1' s2' hcur' hrest' with
            ⟨n1, n2⟩ | ⟨e, n1, n2⟩ | ⟨n, t1, t2, n1, n2, hcur2, hrest2⟩
          · refine Or.inl ⟨?_, ?_⟩ <;> rw [runRule.eq_def] <;>
              simp [hcur, hcond, g1, g2, n1, n2]
          · refine Or.inr (Or.inl ⟨e, ?_, ?_⟩) <;> rw [runRule.eq_def] <;>
              simp [hcur, hcond, g1, g2, n1, n2]
          · rcases ih (.exprLoop (.binOp node s2.currentToken n)) t1 t2 hcur2 hrest2 with
              ⟨m1, m2⟩ | ⟨e, m1, m2⟩ | ⟨nn, u1, u2, m1, m2, hcur3, hrest3⟩
            · refine Or.inl ⟨?_, ?_⟩ <;> rw [runRule.eq_def] <;>
                simp [hcur, hcond, g1, g2, n1, n2, m1, m2]
            · refine Or.inr (Or.inl ⟨e, ?_, ?_⟩) <;> rw [runRule.eq_def] <;>
                simp [hcur, hcond, g1, g2, n1, n2, m1, m2]
            · refine Or.inr (Or.inr ⟨nn, u1, u2, ?_, ?_, hcur3, hrest3⟩) <;>
                rw [runRule.eq_def] <;>
                simp [hcur, hcond, g1, g2, n1, n2, m1, m2]
      · refine Or.inr (Or.inr ⟨node, s1, s2, ?_, ?_, hcur, hrest⟩) <;>
          rw [runRule.eq_def] <;> simp [hcur, hcond]



theorem evaluate_eq_of_lexFail {text : String} {e : Err}
    (hne : text.data.isEmpty = false)
    (hmk : mkParser text.data = .error e) :
    evaluate text = .error e := by
  rw [evaluate, evaluateWith, parseWith]
  simp only [hne, hmk]
  rfl

theorem evaluate_eq_of_parts {text : String} {s : ParserState}
    {o : Except Err (ASTNode × ParserState)}
    (hne : text.data.isEmpty = false)
    (hmk : mkParser text.data = .ok s)
    (hrun : runRule (4 * text.data.length + 5) .expr s = some o) :
    evaluate text =
      (match o with
        | .error e => .error e
        | .ok (node, _) => visit node) := by
  rw [evaluate, evaluateWith, parseWith, fuelBudget]
  simp only [hne, hmk, hrun]
  cases o with
  | error e => rfl
  | ok p => obtain ⟨node, s1⟩ := p; rfl

/-- Inserting one whitespace character at a token boundary (a position that
does not split a digit run) of a nonempty input does not change the result
of the whole pipeline. -/
theorem evaluate_insAt {l1 l2 : List Char} {c : Char}
    (hc : c.isWhitespace = true)
    (hbnd : ¬(lastDigit l1 = true ∧ headDigit l2 = true))
    (hne : l1 ++ l2 ≠ []) :
    evaluate (String.mk (l1 ++ c :: l2)) = evaluate (String.mk (l1 ++ l2)) := by
  have he1 : (l1 ++ l2).isEmpty = false := by
    cases hx : l1 ++ l2 with
    | nil => exact absurd hx hne
    | cons a b => rfl
  have he2 : (l1 ++ c :: l2).isEmpty = false := by
    cases l1 <;> rfl
  have hins : InsAt c l2 (l1 ++ l2) (l1 ++ c :: l2) := Or.inr ⟨l1, rfl, rfl, hbnd⟩
  rcases getNextToken_insAt hc hins with ⟨e, g1, g2⟩ | ⟨t, r1', r2', g1, g2, hins'⟩
  · rw [evaluate_eq_of_lexFail he2 (by rw [mkParser, g2]),
      evaluate_eq_of_lexFail he1 (by rw [mkParser, g1])]
  · have hmk1 : mkParser (l1 ++ l2) = .ok ⟨t, r1'⟩ := by rw [mkParser, g1]
    have hmk2 : mkParser (l1 ++ c :: l2) = .ok ⟨t, r2'⟩ := by rw [mkParser, g2]
    have hrem := mkParser_remaining hmk1
    have hF1 : ruleNeed .expr (ParserState.mk t r1').remaining ≤
        4 * (l1 ++ l2).length + 5 := by
      simp only [ruleNeed]; omega
    cases hr1 : runRule (4 * (l1 ++ l2).length + 5) .expr ⟨t, r1'⟩ with
    | none => exact absurd hr1 (runRule_enough _ _ _ hF1)
    | some o =>
      have hF12 : 4 * (l1 ++ l2).length + 5 ≤ 4 * (l1 ++ c :: l2).length + 5 := by
        simp only [List.length_append, List.length_cons]; omega
      have hr2 : runRule (4 * (l1 ++ c :: l2).length + 5) .expr ⟨t, r1'⟩ = some o :=
        runRule_mono_le hF12 hr1
      rcases runRule_insAt hc (4 * (l1 ++ c :: l2).length + 5) .expr
          ⟨t, r1'⟩ ⟨t, r2'⟩ rfl hins' with
        ⟨m1, m2⟩ | ⟨e, m1, m2⟩ | ⟨n, u1, u2, m1, m2, -, -⟩
      · rw [hr2] at m1; cases m1
      · rw [hr2] at m1
        cases m1
        rw [evaluate_eq_of_parts he2 hmk2 m2, evaluate_eq_of_parts he1 hmk1 hr1]
      · rw [hr2] at m1
        cases m1
        rw [evaluate_eq_of_parts he2 hmk2 m2, evaluate_eq_of_parts he1 hmk1 hr1]

/-- Claim C1: for every input of the form `a OP b` with `a`, `b`
non-negative base-10 integer literals (arbitrary nonempty digit runs) and
`OP` one of `+ - * /`, `evaluate` returns the mathematically correct result
for `+ - *` and the floor-division result for `/`; `/` with `b = 0` fails
with the division-by-zero error (Python's `ZeroDivisionError`, a subclass
of `ArithmeticError`) instead of returning a value. -/
theorem claim1_single_binop (d1 d2 : List Char)
    (hne1 : d1 ≠ []) (hne2 : d2 ≠ [])
    (hd1 : ∀ x ∈ d1, x.isDigit = true) (hd2 : ∀ x ∈ d2, x.isDigit = true) :
    evaluate (String.mk (d1 ++ ' ' :: '+' :: ' ' :: d2)) =
      .ok ((digitsToNat d1 : Int) + (digitsToNat d2 : Int))
    ∧ evaluate (String.mk (d1 ++ ' ' :: '-' :: ' ' :: d2)) =
      .ok ((digitsToNat d1 : Int) - (digitsToNat d2 : Int))
    ∧ evaluate (String.mk (d1 ++ ' ' :: '*' :: ' ' :: d2)) =
      .ok ((digitsToNat d1 : Int) * (digitsToNat d2 : Int))
    ∧ (digitsToNat d2 ≠ 0 →
        evaluate (String.mk (d1 ++ ' ' :: '/' :: ' ' :: d2)) =
          .ok (Int.fdiv (digitsToNat d1) (digitsToNat d2)))
    ∧ (digitsToNat d2 = 0 →
        evaluate (String.mk (d1 ++ ' ' :: '/' :: ' ' :: d2)) =
          .error .zeroDivisionError) := by
  refine ⟨?_, ?_, ?_, ?_, ?_⟩
  · rw [evaluate_two_lits d1 d2 '+' ⟨.PLUS, 0⟩ hne1 hne2 hd1 hd2
      (Or.inl rfl) (fun r => rfl)]
    rfl
  · rw [evaluate_two_lits d1 d2 '-' ⟨.MINUS, 0⟩ hne1 hne2 hd1 hd2
      (Or.inr (Or.inl rfl)) (fun r => rfl)]
    rfl
  · rw [evaluate_two_lits d1 d2 '*' ⟨.MUL, 0⟩ hne1 hne2 hd1 hd2
      (Or.inr (Or.inr (Or.inl rfl))) (fun r => rfl)]
    rfl
  · intro hb
    rw [evaluate_two_lits d1 d2 '/' ⟨.DIV, 0⟩ hne1 hne2 hd1 hd2
      (Or.inr (Or.inr (Or.inr rfl))) (fun r => rfl)]
    have hne : ¬((digitsToNat d2 : Int) = 0) := by exact_mod_cast hb
    show (if (digitsToNat d2 : Int) = 0 then (.error .zeroDivisionError : Except Err Int)
        else pure (Int.fdiv (digitsToNat d1) (digitsToNat d2))) =
      .ok (Int.fdiv (digitsToNat d1) (digitsToNat d2))
    rw [if_neg hne]
    rfl
  · intro hb
    rw [evaluate_two_lits d1 d2 '/' ⟨.DIV, 0⟩ hne1 hne2 hd1 hd2
      (Or.inr (Or.inr (Or.inr rfl))) (fun r => rfl), hb]
    rfl

/-- Witness for C1 at the concrete literals 12 and 3 (and divisor 0). -/
theorem claim1_witness :
    evaluate (String.mk ['1', '2', ' ', '+', ' ', '3']) = .ok 15
    ∧ evaluate (String.mk ['1', '2', ' ', '-', ' ', '3']) = .ok 9
    ∧ evaluate (String.mk ['1', '2', ' ', '*', ' ', '3']) = .ok 36
    ∧ evaluate (String.mk ['1', '2', ' ', '/', ' ', '3']) = .ok 4
    ∧ evaluate (String.mk ['1', '2', ' ', '/', ' ', '0']) = .error .zeroDivisionError := by
  have h3 := claim1_single_binop ['1', '2'] ['3']
    (by decide) (by decide) (by decide) (by decide)
  have h0 := claim1_single_binop ['1', '2'] ['0']
    (by decide) (by decide) (by decide) (by decide)
  simp only [List.cons_append, List.nil_append] at h3 h0
  refine ⟨?_, ?_, ?_, ?_, ?_⟩
  · rw [h3.1]; decide
  · rw [h3.2.1]; decide
  · rw [h3.2.2.1]; decide
  · rw [h3.2.2.2.1 (by decide)]; decide
  · exact h0.2.2.2.2 (by decide)

/-- Claim C2 counterexample: `evaluate "-7 / 2"` does not return `-4`.  The
grammar has no unary minus, so `factor` sees the `MINUS` lookahead, falls
through (returning Python `None`), and the interpreter's dispatch on that
`None` raises `Exception('No visit_NoneType method')`. -/
theorem claim2_counterexample :
    evaluate "-7 / 2" = .error (.visitorError "NoneType")
    ∧ evaluate "-7 / 2" ≠ .ok (-4) := ⟨rfl, by decide⟩

/-- Claim C2 as amended: `evaluate "7 / 2"` returns `3`; `"-7 / 2"` is not
a valid input (no unary minus: it fails with the visitor's
no-visit_NoneType-method error, not with a value); division of a negative
intermediate result follows floor semantics, not truncation:
`evaluate "(0 - 7) / 2"` returns `-4` where truncation would give `-3`. -/
theorem claim2_amended :
    evaluate "7 / 2" = .ok 3
    ∧ evaluate "-7 / 2" = .error (.visitorError "NoneType")
    ∧ evaluate "(0 - 7) / 2" = .ok (-4)
    ∧ Int.fdiv (-7) 2 = -4
    ∧ Int.tdiv (-7) 2 = -3 :=
  ⟨rfl, rfl, rfl, by decide, by decide⟩

/-- Claim C3 (code bug): the claim says `factor` fails with `ParseError` on
a lookahead that is neither `Integer` nor `LParen`; the code instead falls
off the end of the `if/elif` and returns `None`, and the failure that
eventually surfaces (on `"+3"`, for example) is the visitor's reflective
`Exception('No visit_NoneType method')`, not `ParseError`. -/
theorem claim3_factor_returns_none :
    (∀ (fuel : Nat) (s : ParserState),
        s.currentToken.type ≠ .INTEGER → s.currentToken.type ≠ .LPAREN →
        runRule (fuel + 1) .factor s = some (.ok (.pyNone, s)))
    ∧ evaluate "+3" = .error (.visitorError "NoneType")
    ∧ evaluate "+3" ≠ .error (.parseError "Invalid syntax") := by
  refine ⟨?_, rfl, by decide⟩
  intro fuel s h1 h2
  simp [runRule, h1, h2]

/-- Witness for C3: `factor` on a `PLUS` lookahead returns Python `None`
without consuming anything and without raising. -/
theorem claim3_witness :
    runRule 1 .factor ⟨⟨.PLUS, 0⟩, []⟩ = some (.ok (.pyNone, ⟨⟨.PLUS, 0⟩, []⟩)) :=
  claim3_factor_returns_none.1 0 ⟨⟨.PLUS, 0⟩, []⟩ (by decide) (by decide)

/-- Claim C4 (code bug): parsing `"+3"` returns an AST (no exception), yet
its root `BinOp` has Python `None` as its left child — a `BinOp` node
whose children are not both fully constructed is observable. -/
theorem claim4_partial_binop :
    parseText "+3" = .ok (.binOp .pyNone ⟨.PLUS, 0⟩ (.num ⟨.INTEGER, 3⟩))
    ∧ fullyConstructed (.binOp .pyNone ⟨.PLUS, 0⟩ (.num ⟨.INTEGER, 3⟩)) = false :=
  ⟨rfl, rfl⟩

/-- Claim C5: multiplication binds tighter than addition and parentheses
override precedence, both in the values computed and in the shape of the
parsed trees. -/
theorem claim5_precedence :
    evaluate "2 + 3 * 4" = .ok 14
    ∧ evaluate "(2 + 3) * 4" = .ok 20
    ∧ parseText "2 + 3 * 4" =
        .ok (.binOp (.num ⟨.INTEGER, 2⟩) ⟨.PLUS, 0⟩
          (.binOp (.num ⟨.INTEGER, 3⟩) ⟨.MUL, 0⟩ (.num ⟨.INTEGER, 4⟩)))
    ∧ parseText "(2 + 3) * 4" =
        .ok (.binOp (.binOp (.num ⟨.INTEGER, 2⟩) ⟨.PLUS, 0⟩ (.num ⟨.INTEGER, 3⟩))
          ⟨.MUL, 0⟩ (.num ⟨.INTEGER, 4⟩)) :=
  ⟨rfl, rfl, rfl, rfl⟩

/-- Claim C7 counterexample: the lexer's failure on an invalid character is
the bare `Exception('Invalid character')`; it carries neither the offending
character nor its position — inputs differing in both produce the very
same error value. -/
theorem claim7_counterexample :
    evaluate "1 @ 2" = .error (.lexError "Invalid character")
    ∧ evaluate "4 # 5" = .error (.lexError "Invalid character")
    ∧ evaluate "@" = .error (.lexError "Invalid character")
    ∧ evaluate "1 @ 2" = evaluate "4 # 5"
    ∧ evaluate "1 @ 2" = evaluate "@" :=
  ⟨rfl, rfl, rfl, rfl, rfl⟩

/-- Claim C7 as amended: whenever the tokenizer's cursor (after skipping
whitespace) reaches a character that is not a digit and not one of
`+ - * / ( )`, it fails with the lex error `Invalid character` — which
carries no information about the character or its position. -/
theorem claim7_amended :
    (∀ (l : List Char) (c : Char) (cs : List Char),
        skipWhitespace l = c :: cs →
        c.isDigit = false →
        c ≠ '+' → c ≠ '-' → c ≠ '*' → c ≠ '/' → c ≠ '(' → c ≠ ')' →
        getNextToken l = .error (.lexError "Invalid character"))
    ∧ evaluate "1 @ 2" = .error (.lexError "Invalid character") := by
  refine ⟨?_, rfl⟩
  intro l c cs hskip hd h1 h2 h3 h4 h5 h6
  rw [getNextToken, hskip]
  simp [hd, h1, h2, h3, h4, h5, h6]

/-- Witness for C7 (amended) at the character at-sign. -/
theorem claim7_witness :
    getNextToken ['@'] = .error (.lexError "Invalid character") :=
  claim7_amended.1 ['@'] '@' [] (by decide) (by decide) (by decide) (by decide)
    (by decide) (by decide) (by decide) (by decide)

/-- Claim C9: the lexer's constructor indexes `text[0]` immediately, so on
the empty string `evaluate` aborts with the out-of-bounds `IndexError` —
not `EndOfInput` and none of the three declared error kinds. -/
theorem claim9_empty_input : evaluate "" = .error .indexError := rfl

/-- Claim C6 counterexample: removing the only whitespace character of the
input consisting of one space changes the result — the space parses to an
empty token stream and fails in the visitor, while the empty string crashes
the lexer constructor with `IndexError`. -/
theorem claim6_counterexample :
    evaluate " " = .error (.visitorError "NoneType")
    ∧ evaluate "" = .error .indexError
    ∧ evaluate " " ≠ evaluate "" :=
  ⟨rfl, rfl, by decide⟩

/-- Claim C6 as amended: inserting or removing a whitespace character at a
token boundary (a position that does not split a digit literal) does not
change the result, provided the text without that character is nonempty;
in particular the spec's example holds. -/
theorem claim6_whitespace_amended :
    (∀ (l1 l2 : List Char) (c : Char),
      c.isWhitespace = true →
      ¬(lastDigit l1 = true ∧ headDigit l2 = true) →
      l1 ++ l2 ≠ [] →
      evaluate (String.mk (l1 ++ c :: l2)) = evaluate (String.mk (l1 ++ l2)))
    ∧ evaluate "  4+2 *3-6/2 " = evaluate "4+2*3-6/2"
    ∧ evaluate "  4+2 *3-6/2 " = .ok 7 := by
  refine ⟨?_, rfl, rfl⟩
  intro l1 l2 c hc hbnd hne
  exact evaluate_insAt hc hbnd hne

/-- Witness for C6 (amended): one concrete insertion of a space. -/
theorem claim6_witness :
    evaluate (String.mk ['1', ' ', '+', '2']) =
      evaluate (String.mk ['1', '+', '2']) :=
  claim6_whitespace_amended.1 ['1'] ['+', '2'] ' '
    (by decide) (by decide) (by decide)

/-- Claim C10: `parse` returns whatever `expr` produced without requiring
the lookahead to be `EOF`; trailing tokens — even trailing garbage that
would not lex — are silently ignored. -/
theorem claim10_trailing_ignored :
    evaluate "1 2" = .ok 1
    ∧ evaluate "1 2 @" = .ok 1
    ∧ evaluate "7 ) 8" = .ok 7 :=
  ⟨rfl, rfl, rfl⟩

end SPI
